import Mathlib

/-!
Verification development for the `remote_store` library: a shallow
embedding of its path normalization, store façade, capability gating,
local and S3 backend write/delete logic, PEM sanitization, and registry
caching, together with theorems settling the specification's claims.

Python strings are embedded as `List Char`; `bytes` as `List Nat`;
exceptions as `Except`/`Option` results carrying an error-kind value
from the library's flat error taxonomy.
-/

namespace RemoteStore

/-- Strings of the embedded program (Python `str`). -/
abbrev Str := List Char

/-- Byte strings of the embedded program (Python `bytes`). -/
abbrev Bytes := List Nat

/-- The flat error taxonomy of `_errors.py`.  `capabilityNotSupported`
carries its `capability` field; `other` stands for the directly-raised
base class `RemoteStoreError`. -/
inductive Err where
  | notFound
  | alreadyExists
  | permissionDenied
  | invalidPath
  | capabilityNotSupported (capability : Str)
  | backendUnavailable
  | other
  deriving DecidableEq, Repr

deriving instance DecidableEq for Except

/-- The null character rejected by `RemotePath._normalize`. -/
def nullChar : Char := Char.ofNat 0

/-- One character of the backslash-to-slash pass of `RemotePath._normalize`
(`raw.replace("\\", "/")`). -/
def toSlash (c : Char) : Char := if c = '\\' then '/' else c

/-- Python `p.split("/")` on the character list: always returns at least
one (possibly empty) segment. -/
def splitSlash : Str → List Str
  | [] => [[]]
  | c :: cs =>
    match splitSlash cs with
    | [] => [[]]
    | s :: rest => if c = '/' then [] :: s :: rest else (c :: s) :: rest

/-- Python `"/".join(segs)`. -/
def joinSlash : List Str → Str
  | [] => []
  | [s] => s
  | s :: s₂ :: rest => s ++ '/' :: joinSlash (s₂ :: rest)

/-- The segment filter loop of `RemotePath._normalize`: discard empty and
`"."` segments, fail (`InvalidPath`) on a `".."` segment, keep the rest
in order. -/
def dropSegs : List Str → Option (List Str)
  | [] => some []
  | s :: rest =>
    if s = [] ∨ s = ['.'] then dropSegs rest
    else if s = ['.', '.'] then none
    else (dropSegs rest).map (s :: ·)

/-- Embedding of `RemotePath._normalize` from `_path.py`: reject null bytes, convert
backslashes, split on `/`, drop empty and dot segments, reject `..`,
require at least one remaining segment, rejoin with `/`.  `none` stands
for a raised `InvalidPath`. -/
def normalize (raw : Str) : Option Str :=
  if nullChar ∈ raw then none
  else
    match dropSegs (splitSlash (raw.map toSlash)) with
    | none => none
    | some [] => none
    | some segs => some (joinSlash segs)

/-- The `Capability` enum of `_capabilities.py`. -/
inductive Capability where
  | READ
  | WRITE
  | DELETE
  | LIST
  | MOVE
  | COPY
  | ATOMIC_WRITE
  | GLOB
  | RECURSIVE_LIST
  | METADATA
  deriving DecidableEq, Repr

/-- The `value` string of each `Capability` member. -/
def Capability.value : Capability → Str
  | .READ => "read".toList
  | .WRITE => "write".toList
  | .DELETE => "delete".toList
  | .LIST => "list".toList
  | .MOVE => "move".toList
  | .COPY => "copy".toList
  | .ATOMIC_WRITE => "atomic_write".toList
  | .GLOB => "glob".toList
  | .RECURSIVE_LIST => "recursive_list".toList
  | .METADATA => "metadata".toList

/-- A backend's declared capability set (`CapabilitySet`). -/
abbrev CapabilitySet := List Capability

/-- Embedding of `CapabilitySet.require`: `none` means the check passed, `some e` the
raised `CapabilityNotSupported` carrying the capability's value. -/
def CapabilitySet.require (caps : CapabilitySet) (c : Capability) : Option Err :=
  if c ∈ caps then none else some (.capabilityNotSupported c.value)

/-- The full capability set declared by the local and S3 backends. -/
def allCapabilities : CapabilitySet :=
  [.READ, .WRITE, .DELETE, .LIST, .MOVE, .COPY, .ATOMIC_WRITE, .GLOB,
   .RECURSIVE_LIST, .METADATA]

/-- Embedding of `FileInfo` metadata snapshot (fields the embedding needs). -/
structure FileInfo where
  path : Str
  name : Str
  size : Nat
  modified_at : Nat
  deriving DecidableEq, Repr

/-- Embedding of `FolderInfo` aggregate metadata. -/
structure FolderInfo where
  path : Str
  file_count : Nat
  total_size : Nat
  modified_at : Option Nat
  deriving DecidableEq, Repr

/-- Embedding of `Store._full_path`: empty paths resolve to the store root; nonempty
paths are validated through `RemotePath` and prefixed with the root.
`none` is a raised `InvalidPath`. -/
def Store.full_path (root p : Str) : Option Str :=
  if p = [] then some root
  else
    match normalize p with
    | none => none
    | some v => if root = [] then some v else some (root ++ '/' :: v)

/-- Embedding of `Store._require_file_path`: like `_full_path` but empty paths raise
`InvalidPath`. -/
def Store.require_file_path (root p : Str) : Option Str :=
  if p = [] then none else Store.full_path root p

/-- Embedding of `Store._strip_root`: strip the root prefix from a backend-relative
path; `none` is the raised `InvalidPath` for paths not under the root. -/
def Store.strip_root (root rel : Str) : Option Str :=
  if root = [] then some rel
  else if rel = root then some []
  else if (root ++ ['/']).isPrefixOf rel then some (rel.drop (root.length + 1))
  else none

/-- Embedding of `Store._rebase_file_info`: strip the root from the snapshot's path;
an unchanged path returns the snapshot as-is, otherwise the stripped
path is revalidated through `RemotePath` and substituted. -/
def Store.rebase_file_info (root : Str) (info : FileInfo) : Option FileInfo :=
  match Store.strip_root root info.path with
  | none => none
  | some rel =>
    if rel = info.path then some info
    else
      match normalize rel with
      | none => none
      | some rp => some { info with path := rp }

/-- The backend call a `Store` operation delegates to after its
capability and path checks succeed.  A `Store` operation of the
embedding returns `Except Err Delegation`: an `error` result models a
raise before any backend delegation, so the backend is never invoked. -/
inductive Delegation where
  | readOp (p : Str)
  | readBytesOp (p : Str)
  | writeOp (p : Str) (content : Bytes) (overwrite : Bool)
  | writeAtomicOp (p : Str) (content : Bytes) (overwrite : Bool)
  | deleteOp (p : Str) (missing_ok : Bool)
  | deleteFolderOp (p : Str) (recursive missing_ok : Bool)
  | listFilesOp (p : Str) (recursive : Bool)
  | listFoldersOp (p : Str)
  | getFileInfoOp (p : Str)
  | getFolderInfoOp (p : Str)
  | moveOp (src dst : Str) (overwrite : Bool)
  | copyOp (src dst : Str) (overwrite : Bool)
  | existsOp (p : Str)
  | isFileOp (p : Str)
  | isFolderOp (p : Str)
  deriving DecidableEq, Repr

/-- Embedding of `Store.exists` (no capability check in the source). -/
def Store.exists (root p : Str) : Except Err Delegation :=
  match Store.full_path root p with
  | none => .error .invalidPath
  | some fp => .ok (.existsOp fp)

/-- Embedding of `Store.is_file`. -/
def Store.is_file (root p : Str) : Except Err Delegation :=
  match Store.full_path root p with
  | none => .error .invalidPath
  | some fp => .ok (.isFileOp fp)

/-- Embedding of `Store.is_folder`. -/
def Store.is_folder (root p : Str) : Except Err Delegation :=
  match Store.full_path root p with
  | none => .error .invalidPath
  | some fp => .ok (.isFolderOp fp)

/-- Embedding of `Store.read`: requires `READ`, then a non-empty valid path. -/
def Store.read (caps : CapabilitySet) (root p : Str) : Except Err Delegation :=
  match caps.require .READ with
  | some e => .error e
  | none =>
    match Store.require_file_path root p with
    | none => .error .invalidPath
    | some fp => .ok (.readOp fp)

/-- Embedding of `Store.read_bytes`: requires `READ`, then a non-empty valid path. -/
def Store.read_bytes (caps : CapabilitySet) (root p : Str) : Except Err Delegation :=
  match caps.require .READ with
  | some e => .error e
  | none =>
    match Store.require_file_path root p with
    | none => .error .invalidPath
    | some fp => .ok (.readBytesOp fp)

/-- Embedding of `Store.write`: requires `WRITE`, then a non-empty valid path. -/
def Store.write (caps : CapabilitySet) (root p : Str) (content : Bytes)
    (overwrite : Bool) : Except Err Delegation :=
  match caps.require .WRITE with
  | some e => .error e
  | none =>
    match Store.require_file_path root p with
    | none => .error .invalidPath
    | some fp => .ok (.writeOp fp content overwrite)

/-- Embedding of `Store.write_atomic`: requires `ATOMIC_WRITE`, then a non-empty
valid path. -/
def Store.write_atomic (caps : CapabilitySet) (root p : Str) (content : Bytes)
    (overwrite : Bool) : Except Err Delegation :=
  match caps.require .ATOMIC_WRITE with
  | some e => .error e
  | none =>
    match Store.require_file_path root p with
    | none => .error .invalidPath
    | some fp => .ok (.writeAtomicOp fp content overwrite)

/-- Embedding of `Store.delete`: requires `DELETE`, then a non-empty valid path. -/
def Store.delete (caps : CapabilitySet) (root p : Str) (missing_ok : Bool) :
    Except Err Delegation :=
  match caps.require .DELETE with
  | some e => .error e
  | none =>
    match Store.require_file_path root p with
    | none => .error .invalidPath
    | some fp => .ok (.deleteOp fp missing_ok)

/-- Embedding of `Store.delete_folder`: the empty-path guard (`InvalidPath`, cannot
delete the store root) runs before the `DELETE` capability check. -/
def Store.delete_folder (caps : CapabilitySet) (root p : Str)
    (recursive missing_ok : Bool) : Except Err Delegation :=
  if p = [] then .error .invalidPath
  else
    match caps.require .DELETE with
    | some e => .error e
    | none =>
      match Store.full_path root p with
      | none => .error .invalidPath
      | some fp => .ok (.deleteFolderOp fp recursive missing_ok)

/-- Embedding of `Store.list_files`: requires `LIST`; empty path means the root. -/
def Store.list_files (caps : CapabilitySet) (root p : Str) (recursive : Bool) :
    Except Err Delegation :=
  match caps.require .LIST with
  | some e => .error e
  | none =>
    match Store.full_path root p with
    | none => .error .invalidPath
    | some fp => .ok (.listFilesOp fp recursive)

/-- Embedding of `Store.list_folders`: requires `LIST`; empty path means the root. -/
def Store.list_folders (caps : CapabilitySet) (root p : Str) :
    Except Err Delegation :=
  match caps.require .LIST with
  | some e => .error e
  | none =>
    match Store.full_path root p with
    | none => .error .invalidPath
    | some fp => .ok (.listFoldersOp fp)

/-- Embedding of `Store.get_file_info`: requires `METADATA`, then a non-empty valid
path. -/
def Store.get_file_info (caps : CapabilitySet) (root p : Str) :
    Except Err Delegation :=
  match caps.require .METADATA with
  | some e => .error e
  | none =>
    match Store.require_file_path root p with
    | none => .error .invalidPath
    | some fp => .ok (.getFileInfoOp fp)

/-- Embedding of `Store.get_folder_info`: requires `METADATA`; empty path means the
root. -/
def Store.get_folder_info (caps : CapabilitySet) (root p : Str) :
    Except Err Delegation :=
  match caps.require .METADATA with
  | some e => .error e
  | none =>
    match Store.full_path root p with
    | none => .error .invalidPath
    | some fp => .ok (.getFolderInfoOp fp)

/-- Embedding of `Store.move`: requires `MOVE`; both endpoints must be non-empty
valid paths (source is resolved first, as Python evaluates arguments
left to right). -/
def Store.move (caps : CapabilitySet) (root src dst : Str) (overwrite : Bool) :
    Except Err Delegation :=
  match caps.require .MOVE with
  | some e => .error e
  | none =>
    match Store.require_file_path root src with
    | none => .error .invalidPath
    | some fsrc =>
      match Store.require_file_path root dst with
      | none => .error .invalidPath
      | some fdst => .ok (.moveOp fsrc fdst overwrite)

/-- Embedding of `Store.copy`: requires `COPY`; both endpoints must be non-empty
valid paths. -/
def Store.copy (caps : CapabilitySet) (root src dst : Str) (overwrite : Bool) :
    Except Err Delegation :=
  match caps.require .COPY with
  | some e => .error e
  | none =>
    match Store.require_file_path root src with
    | none => .error .invalidPath
    | some fsrc =>
      match Store.require_file_path root dst with
      | none => .error .invalidPath
      | some fdst => .ok (.copyOp fsrc fdst overwrite)

/-- Association-list lookup (embeds Python dict access / exact-key
lookup on a flat key space). -/
def assocGet {α : Type} : List (Str × α) → Str → Option α
  | [], _ => none
  | (k, v) :: rest, p => if k = p then some v else assocGet rest p

/-- Association-list update-or-insert (embeds writing a key). -/
def assocSet {α : Type} : List (Str × α) → Str → α → List (Str × α)
  | [], p, c => [(p, c)]
  | (k, v) :: rest, p, c =>
    if k = p then (p, c) :: rest else (k, v) :: assocSet rest p c

/-- Boolean membership on string lists. -/
def memStr : List Str → Str → Bool
  | [], _ => false
  | d :: rest, p => if d = p then true else memStr rest p

/-- Boolean list-prefix test. -/
def isPre : Str → Str → Bool
  | [], _ => true
  | _ :: _, [] => false
  | a :: as, b :: bs => if a = b then isPre as bs else false

/-- A local filesystem state: files with contents, plus directories
(which persist independently of files, unlike S3 prefixes).  Paths are
root-relative normalized keys. -/
structure LocalFS where
  files : List (Str × Bytes)
  dirs : List Str
  deriving DecidableEq, Repr

/-- Embedding of `Path.exists` under the local root: a file or a directory. -/
def localExists (fs : LocalFS) (p : Str) : Bool :=
  (assocGet fs.files p).isSome || memStr fs.dirs p

/-- The proper ancestor directories of a path (`mkdir(parents=True)` on
the target's parent creates exactly these). -/
def ancestors (p : Str) : List Str :=
  (List.range p.length).filterMap
    (fun i => if p.get? i = some '/' then some (p.take i) else none)

/-- Embedding of `LocalBackend.write`: `AlreadyExists` when the target exists and
`overwrite` is false; otherwise create parent directories and write.
Writing over an existing directory would raise an unmapped native
`IsADirectoryError`, embedded as the base error kind. -/
def LocalBackend.write (fs : LocalFS) (p : Str) (content : Bytes)
    (overwrite : Bool) : Except Err LocalFS :=
  if !overwrite && localExists fs p then .error .alreadyExists
  else if memStr fs.dirs p then .error .other
  else .ok ⟨assocSet fs.files p content, ancestors p ++ fs.dirs⟩

/-- Does the directory `p` have any entry strictly inside it? -/
def hasChildren (fs : LocalFS) (p : Str) : Bool :=
  fs.files.any (fun e => isPre (p ++ ['/']) e.1) ||
    fs.dirs.any (fun d => isPre (p ++ ['/']) d)

/-- Embedding of `LocalBackend.delete_folder`: absent target is `NotFound` unless
`missing_ok`; a non-directory target is `NotFound` ("Not a folder");
non-recursive deletion of a non-empty directory surfaces the native
`ENOTEMPTY` as `NotFound` ("Folder not empty"). -/
def LocalBackend.delete_folder (fs : LocalFS) (p : Str)
    (recursive missing_ok : Bool) : Except Err LocalFS :=
  if !localExists fs p then
    if missing_ok then .ok fs else .error .notFound
  else if !memStr fs.dirs p then .error .notFound
  else if recursive then
    .ok ⟨fs.files.filter (fun e => !isPre (p ++ ['/']) e.1),
         fs.dirs.filter (fun d => !isPre (p ++ ['/']) d && !(decide (d = p)))⟩
  else if hasChildren fs p then .error .notFound
  else .ok ⟨fs.files, fs.dirs.filter (fun d => !(decide (d = p)))⟩

/-- An S3 object store state: a flat mapping of keys to contents. -/
abbrev S3State := List (Str × Bytes)

/-- Embedding of `s3fs` existence for a key: an exact object, or any object under
the key as a prefix (virtual folders). -/
def s3Exists (st : S3State) (p : Str) : Bool :=
  (assocGet st p).isSome || st.any (fun e => isPre (p ++ ['/']) e.1)

/-- Embedding of `S3Backend.write`: `AlreadyExists` when the key exists and
`overwrite` is false; otherwise a single `pipe_file` PUT. -/
def S3Backend.write (st : S3State) (p : Str) (content : Bytes)
    (overwrite : Bool) : Except Err S3State :=
  if !overwrite && s3Exists st p then .error .alreadyExists
  else .ok (assocSet st p content)

/-- Embedding of `S3Backend.write_atomic`: delegates to `write` unchanged (a single
PUT is already atomic). -/
def S3Backend.write_atomic (st : S3State) (p : Str) (content : Bytes)
    (overwrite : Bool) : Except Err S3State :=
  S3Backend.write st p content overwrite

/-- One entry of an `s3fs` listing/walk response. -/
structure S3Entry where
  key : Str
  typ : Str
  size : Nat
  modified : Option Nat
  deriving DecidableEq, Repr

/-- The `s3fs` answers observed by one `S3Backend.get_folder_info`
call: the `exists` answer for the prefix and the recursive `find`
result under it. -/
structure S3View where
  existsAns : Bool
  findAns : List S3Entry
  deriving DecidableEq, Repr

/-- The `s3fs` entry type tag for files. -/
def fileTag : Str := "file".toList

/-- One iteration of the aggregation loop of
`S3Backend.get_folder_info`: count a file entry, add its size, and keep
the latest modification time. -/
def aggStep (acc : Nat × Nat × Option Nat) (e : S3Entry) :
    Nat × Nat × Option Nat :=
  if e.typ = fileTag then
    (acc.1 + 1, acc.2.1 + e.size,
      match e.modified, acc.2.2 with
      | none, l => l
      | some m, none => some m
      | some m, some l => if m > l then some m else some l)
  else acc

/-- Embedding of `S3Backend.get_folder_info`: `NotFound` when the prefix does not
exist, or when the recursive walk finds zero file entries; otherwise a
`FolderInfo` aggregating the walked files. -/
def S3Backend.get_folder_info (view : S3View) (p : Str) :
    Except Err FolderInfo :=
  if !view.existsAns then .error .notFound
  else
    let agg := view.findAns.foldl aggStep (0, 0, none)
    if agg.1 = 0 then .error .notFound
    else .ok ⟨p, agg.1, agg.2.1, agg.2.2⟩

/-- The number of file-typed entries in a walk response. -/
def countFiles (l : List S3Entry) : Nat :=
  (l.filter (fun e => decide (e.typ = fileTag))).length

/-- The PEM five-dash delimiter. -/
def pemSep : Str := "-----".toList

/-- Fuel-indexed worker for `splitPem` (the fuel dominates the string
length, so the zero-fuel branch is unreachable). -/
def splitPemFuel : Nat → Str → List Str
  | 0, _ => [[]]
  | _ + 1, [] => [[]]
  | fuel + 1, c :: rest =>
    if isPre pemSep (c :: rest) then [] :: splitPemFuel fuel (rest.drop 4)
    else
      match splitPemFuel fuel rest with
      | [] => [[c]]
      | t :: ts => (c :: t) :: ts

/-- Python `pem.split("-----")`: left-to-right, non-overlapping. -/
def splitPem (s : Str) : List Str := splitPemFuel s.length s

/-- The base64 alphabet of the sanitizer's regex `[^A-Za-z\d+/=]`
(digits taken as ASCII digits). -/
def isBase64 (c : Char) : Bool :=
  ('A' ≤ c && c ≤ 'Z') || ('a' ≤ c && c ≤ 'z') || ('0' ≤ c && c ≤ '9') ||
    c = '+' || c = '/' || c = '='

/-- Worker for `dedupChars`, skipping characters already seen. -/
def dedupAux : Str → Str → Str
  | _, [] => []
  | seen, c :: rest =>
    if c ∈ seen then dedupAux seen rest
    else c :: dedupAux (c :: seen) rest

/-- Distinct characters of a string (Python `list(set(...))`, keeping
first occurrences). -/
def dedupChars (s : Str) : Str := dedupAux [] s

/-- Embedding of `_sanitize_pem` from `_sftp.py`: require exactly five
delimiter-separated parts; require exactly one distinct non-base64
character in the payload part; replace each of its occurrences with a
newline and rejoin.  `none` is a raised `ValueError`. -/
def sanitize_pem (pem : Str) : Option Str :=
  let parts := splitPem pem
  if parts.length ≠ 5 then none
  else
    let payload := parts.getD 2 []
    match dedupChars (payload.filter (fun c => !isBase64 c)) with
    | [c] =>
      let newPayload := payload.map (fun x => if x = c then '\n' else x)
      if payload.length ≠ newPayload.length then none
      else some (List.intercalate pemSep (parts.set 2 newPayload))
    | _ => none

/-- A backend configuration entry (`BackendConfig`), reduced to the
type tag the registry dispatches on. -/
structure BackendConfigM where
  type : Str
  deriving DecidableEq, Repr

/-- A store profile (`StoreProfile`). -/
structure StoreProfileM where
  backend : Str
  root_path : Str
  deriving DecidableEq, Repr

/-- A registry configuration (`RegistryConfig`). -/
structure RegistryConfigM where
  backends : List (Str × BackendConfigM)
  stores : List (Str × StoreProfileM)
  deriving DecidableEq, Repr

/-- The registry's mutable state: the backend cache mapping
backend-config names to instantiated backend instances (instances are
identified by the order in which they were constructed), and the count
of constructions performed so far. -/
structure RegState where
  cache : List (Str × Nat)
  nextId : Nat
  deriving DecidableEq, Repr

/-- The value `Registry.get_store` returns: a store façade holding the
backend instance and the profile's root path. -/
structure StoreM where
  backendId : Nat
  root_path : Str
  deriving DecidableEq, Repr

/-- Registry-level lookup failures (`KeyError` for unknown names,
`ValueError` for validation and unknown-type failures). -/
inductive RegErr where
  | keyError
  | valueError
  deriving DecidableEq, Repr

/-- Embedding of `RegistryConfig.validate`: every store profile's backend reference
must exist. -/
def RegistryConfigM.validate (cfg : RegistryConfigM) : Bool :=
  cfg.stores.all (fun s => (assocGet cfg.backends s.2.backend).isSome)

/-- Embedding of `Registry.__init__`: validate the configuration and start with an
empty backend cache — no backend instance is constructed. -/
def Registry.construct (cfg : RegistryConfigM) : Except RegErr RegState :=
  if cfg.validate then .ok ⟨[], 0⟩ else .error .valueError

/-- Embedding of `Registry._get_backend`: return the cached instance, or construct a
fresh one (checking the factory table for the backend type) and cache
it. -/
def Registry.get_backend (factories : List Str) (cfg : RegistryConfigM)
    (st : RegState) (name : Str) : Except RegErr (Nat × RegState) :=
  match assocGet st.cache name with
  | some bid => .ok (bid, st)
  | none =>
    match assocGet cfg.backends name with
    | none => .error .keyError
    | some bc =>
      if memStr factories bc.type then
        .ok (st.nextId, ⟨(name, st.nextId) :: st.cache, st.nextId + 1⟩)
      else .error .valueError

/-- Embedding of `Registry.get_store`: resolve the profile, resolve (lazily
constructing) its backend, and wrap it in a store with the profile's
root path. -/
def Registry.get_store (factories : List Str) (cfg : RegistryConfigM)
    (st : RegState) (name : Str) : Except RegErr (StoreM × RegState) :=
  match assocGet cfg.stores name with
  | none => .error .keyError
  | some prof =>
    match Registry.get_backend factories cfg st prof.backend with
    | .error e => .error e
    | .ok (bid, st') => .ok (⟨bid, prof.root_path⟩, st')

/-- Embedding of `Registry.close`: close every instantiated backend and clear the
cache. -/
def Registry.close (st : RegState) : RegState := ⟨[], st.nextId⟩

theorem splitSlash_ne_nil (l : Str) : splitSlash l ≠ [] := by
  cases l with
  | nil => simp [splitSlash]
  | cons c cs =>
    simp only [splitSlash]
    cases h : splitSlash cs with
    | nil => simp
    | cons s rest =>
      by_cases hc : c = '/' <;> simp [hc]

/-- Segments produced by `splitSlash` contain no slash. -/
theorem splitSlash_no_slash {l : Str} {s : Str} (hs : s ∈ splitSlash l) :
    '/' ∉ s := by
  induction l generalizing s with
  | nil =>
    simp [splitSlash] at hs
    simp [hs]
  | cons c cs ih =>
    simp only [splitSlash] at hs
    cases h : splitSlash cs with
    | nil => exact absurd h (splitSlash_ne_nil cs)
    | cons t rest =>
      rw [h] at hs
      by_cases hc : c = '/'
      · simp [hc] at hs
        rcases hs with hs | hs | hs
        · simp [hs]
        · subst hs; exact ih (by rw [h]; exact List.mem_cons_self s rest)
        · exact ih (by rw [h]; exact List.mem_cons_of_mem t hs)
      · simp [hc] at hs
        rcases hs with hs | hs
        · subst hs
          intro hmem
          rcases List.mem_cons.mp hmem with hq | hq
          · exact hc hq.symm
          · exact ih (show t ∈ splitSlash cs by rw [h]; exact List.mem_cons_self t rest) hq
        · exact ih (by rw [h]; exact List.mem_cons_of_mem t hs)

/-- Every character of a `splitSlash` segment occurs in the input. -/
theorem splitSlash_chars {l : Str} {s : Str} (hs : s ∈ splitSlash l)
    {c : Char} (hc : c ∈ s) : c ∈ l := by
  induction l generalizing s with
  | nil =>
    simp [splitSlash] at hs
    subst hs
    simp at hc
  | cons a cs ih =>
    simp only [splitSlash] at hs
    cases h : splitSlash cs with
    | nil => exact absurd h (splitSlash_ne_nil cs)
    | cons t rest =>
      rw [h] at hs
      by_cases ha : a = '/'
      · simp [ha] at hs
        rcases hs with hs | hs | hs
        · subst hs; simp at hc
        · subst hs
          exact List.mem_cons_of_mem a (ih (by rw [h]; exact List.mem_cons_self s rest) hc)
        · exact List.mem_cons_of_mem a (ih (by rw [h]; exact List.mem_cons_of_mem t hs) hc)
      · simp [ha] at hs
        rcases hs with hs | hs
        · subst hs
          rcases List.mem_cons.mp hc with hq | hq
          · exact hq ▸ List.mem_cons_self a cs
          · exact List.mem_cons_of_mem a
              (ih (show t ∈ splitSlash cs by rw [h]; exact List.mem_cons_self t rest) hq)
        · exact List.mem_cons_of_mem a (ih (by rw [h]; exact List.mem_cons_of_mem t hs) hc)

/-- Segments surviving `dropSegs` come from the input and are neither
empty nor `"."` nor `".."`. -/
theorem dropSegs_mem {l out : List Str} (h : dropSegs l = some out)
    {s : Str} (hs : s ∈ out) :
    s ∈ l ∧ s ≠ [] ∧ s ≠ ['.'] ∧ s ≠ ['.', '.'] := by
  induction l generalizing out with
  | nil =>
    simp [dropSegs] at h
    subst h
    simp at hs
  | cons a rest ih =>
    simp only [dropSegs] at h
    by_cases ha : a = [] ∨ a = ['.']
    · rw [if_pos ha] at h
      have := ih h hs
      exact ⟨List.mem_cons_of_mem a this.1, this.2⟩
    · rw [if_neg ha] at h
      by_cases ha2 : a = ['.', '.']
      · rw [if_pos ha2] at h
        simp at h
      · rw [if_neg ha2] at h
        cases hrec : dropSegs rest with
        | none => rw [hrec] at h; simp at h
        | some out' =>
          rw [hrec] at h
          simp at h
          subst h
          rcases List.mem_cons.mp hs with hq | hq
          · subst hq
            push_neg at ha
            exact ⟨List.mem_cons_self s rest, ha.1, ha.2, ha2⟩
          · have := ih hrec hq
            exact ⟨List.mem_cons_of_mem a this.1, this.2⟩

/-- Applying `dropSegs` to a list whose segments are all kept returns
it unchanged. -/
theorem dropSegs_id {l : List Str}
    (h : ∀ s ∈ l, s ≠ [] ∧ s ≠ ['.'] ∧ s ≠ ['.', '.']) :
    dropSegs l = some l := by
  induction l with
  | nil => simp [dropSegs]
  | cons a rest ih =>
    have ha := h a (List.mem_cons_self a rest)
    have hrest : ∀ s ∈ rest, s ≠ [] ∧ s ≠ ['.'] ∧ s ≠ ['.', '.'] :=
      fun s hs => h s (List.mem_cons_of_mem a hs)
    simp only [dropSegs]
    rw [if_neg (by push_neg; exact ⟨ha.1, ha.2.1⟩), if_neg ha.2.2, ih hrest]
    rfl

/-- Every character of `joinSlash l` is a slash or a character of some
segment of `l`. -/
theorem joinSlash_chars {l : List Str} {c : Char} (hc : c ∈ joinSlash l) :
    c = '/' ∨ ∃ s ∈ l, c ∈ s := by
  induction l with
  | nil => simp [joinSlash] at hc
  | cons a rest ih =>
    cases rest with
    | nil =>
      simp only [joinSlash] at hc
      exact Or.inr ⟨a, List.mem_cons_self a [], hc⟩
    | cons b rest' =>
      simp only [joinSlash] at hc
      rcases List.mem_append.mp hc with hq | hq
      · exact Or.inr ⟨a, List.mem_cons_self a _, hq⟩
      · rcases List.mem_cons.mp hq with hq | hq
        · exact Or.inl hq
        · rcases ih hq with hq | ⟨s, hs, hcs⟩
          · exact Or.inl hq
          · exact Or.inr ⟨s, List.mem_cons_of_mem a hs, hcs⟩

/-- Splitting a slash-free string yields the single segment. -/
theorem splitSlash_single {s : Str} (h : '/' ∉ s) : splitSlash s = [s] := by
  induction s with
  | nil => simp [splitSlash]
  | cons c cs ih =>
    have hc : c ≠ '/' := fun hq => h (hq ▸ List.mem_cons_self c cs)
    have hcs : '/' ∉ cs := fun hq => h (List.mem_cons_of_mem c hq)
    simp only [splitSlash, ih hcs]
    simp [hc]

/-- Splitting peels off a leading slash-free segment followed by a
separator. -/
theorem splitSlash_append {s l : Str} (h : '/' ∉ s) :
    splitSlash (s ++ '/' :: l) = s :: splitSlash l := by
  induction s with
  | nil =>
    simp only [List.nil_append, splitSlash]
    cases hq : splitSlash l with
    | nil => exact absurd hq (splitSlash_ne_nil l)
    | cons t rest => simp
  | cons c cs ih =>
    have hc : c ≠ '/' := fun hq => h (hq ▸ List.mem_cons_self c cs)
    have hcs : '/' ∉ cs := fun hq => h (List.mem_cons_of_mem c hq)
    simp only [List.cons_append, splitSlash, List.append_eq]
    rw [ih hcs]
    simp [hc]

/-- Splitting undoes joining for nonempty lists of slash-free segments. -/
theorem splitSlash_joinSlash {l : List Str} (hne : l ≠ [])
    (h : ∀ s ∈ l, '/' ∉ s) : splitSlash (joinSlash l) = l := by
  induction l with
  | nil => exact absurd rfl hne
  | cons a rest ih =>
    cases rest with
    | nil =>
      simp only [joinSlash]
      exact splitSlash_single (h a (List.mem_cons_self a []))
    | cons b rest' =>
      simp only [joinSlash]
      rw [splitSlash_append (h a (List.mem_cons_self a _))]
      rw [ih (by simp) (fun s hs => h s (List.mem_cons_of_mem a hs))]

/-- The backslash-to-slash map fixes backslash-free strings. -/
theorem map_toSlash_id {l : Str} (h : '\\' ∉ l) : l.map toSlash = l := by
  induction l with
  | nil => rfl
  | cons c cs ih =>
    have hc : c ≠ '\\' := fun hq => h (hq ▸ List.mem_cons_self c cs)
    have hcs : '\\' ∉ cs := fun hq => h (List.mem_cons_of_mem c hq)
    simp [toSlash, hc, ih hcs]

/-- No backslash survives the backslash-to-slash map. -/
theorem not_backslash_mem_map (l : Str) : '\\' ∉ l.map toSlash := by
  intro h
  rcases List.mem_map.mp h with ⟨c, _, hc⟩
  by_cases hq : c = '\\' <;> simp [toSlash, hq] at hc

/-- The map introduces no null character. -/
theorem nullChar_mem_map {l : Str} (h : nullChar ∈ l.map toSlash) :
    nullChar ∈ l := by
  rcases List.mem_map.mp h with ⟨c, hcl, hc⟩
  by_cases hq : c = '\\'
  · simp [toSlash, hq] at hc
    exact absurd hc.symm (by decide)
  · simp [toSlash, hq] at hc
    exact hc ▸ hcl

/-- Normalization is idempotent: a produced normal form normalizes to
itself. -/
theorem normalize_idem {raw t : Str} (h : normalize raw = some t) :
    normalize t = some t := by
  unfold normalize at h
  by_cases hnull : nullChar ∈ raw
  · rw [if_pos hnull] at h; exact absurd h (by simp)
  rw [if_neg hnull] at h
  cases hdrop : dropSegs (splitSlash (raw.map toSlash)) with
  | none => rw [hdrop] at h; exact absurd h (by simp)
  | some segs =>
    rw [hdrop] at h
    cases segs with
    | nil => exact absurd h (by simp)
    | cons s rest =>
      simp only [Option.some.injEq] at h
      subst h
      -- facts about the kept segments
      have hmem : ∀ u ∈ s :: rest, u ∈ splitSlash (raw.map toSlash) ∧
          u ≠ [] ∧ u ≠ ['.'] ∧ u ≠ ['.', '.'] :=
        fun u hu => dropSegs_mem hdrop hu
      have hslash : ∀ u ∈ s :: rest, '/' ∉ u :=
        fun u hu => splitSlash_no_slash (hmem u hu).1
      have hchars : ∀ u ∈ s :: rest, ∀ c ∈ u, c ∈ raw.map toSlash :=
        fun u hu c hc => splitSlash_chars (hmem u hu).1 hc
      -- the joined normal form has no null and no backslash
      have htnull : nullChar ∉ joinSlash (s :: rest) := by
        intro hq
        rcases joinSlash_chars hq with hq | ⟨u, hu, hcu⟩
        · exact absurd hq (by decide)
        · exact hnull (nullChar_mem_map (hchars u hu nullChar hcu))
      have htback : '\\' ∉ joinSlash (s :: rest) := by
        intro hq
        rcases joinSlash_chars hq with hq | ⟨u, hu, hcu⟩
        · exact absurd hq (by decide)
        · exact not_backslash_mem_map raw (hchars u hu '\\' hcu)
      unfold normalize
      rw [if_neg htnull, map_toSlash_id htback,
        splitSlash_joinSlash (by simp) hslash,
        dropSegs_id (fun u hu => (hmem u hu).2)]

/-- A produced normal form is never the empty string. -/
theorem normalize_ne_nil {raw t : Str} (h : normalize raw = some t) :
    t ≠ [] := by
  unfold normalize at h
  by_cases hnull : nullChar ∈ raw
  · rw [if_pos hnull] at h; exact absurd h (by simp)
  rw [if_neg hnull] at h
  cases hdrop : dropSegs (splitSlash (raw.map toSlash)) with
  | none => rw [hdrop] at h; exact absurd h (by simp)
  | some segs =>
    rw [hdrop] at h
    cases segs with
    | nil => exact absurd h (by simp)
    | cons s rest =>
      simp only [Option.some.injEq] at h
      subst h
      have hs : s ≠ [] := (dropSegs_mem hdrop (List.mem_cons_self s rest)).2.1
      cases rest with
      | nil => simpa [joinSlash] using hs
      | cons b rest' =>
        simp only [joinSlash]
        simp

/-- Claim C1: `RemotePath._normalize` is total (it is a Lean function
on all strings) and idempotent — every successfully produced normal
form normalizes to itself; the listed concrete inputs normalize or are
rejected exactly as the specification states, and any string containing
a null byte is rejected. -/
theorem C1_path_normalization :
    (∀ raw t : Str, normalize raw = some t → normalize t = some t)
    ∧ normalize "a//b".toList = some "a/b".toList
    ∧ normalize "a/./b".toList = some "a/b".toList
    ∧ normalize "a\\b".toList = some "a/b".toList
    ∧ normalize "..".toList = none
    ∧ normalize "foo/../bar".toList = none
    ∧ normalize "".toList = none
    ∧ normalize "/".toList = none
    ∧ normalize ".".toList = none
    ∧ (∀ raw : Str, nullChar ∈ raw → normalize raw = none) := by
  refine ⟨fun _ _ h => normalize_idem h, by decide, by decide, by decide,
    by decide, by decide, by decide, by decide, by decide, ?_⟩
  intro raw h
  unfold normalize
  rw [if_pos h]

/-- Witness for C1 at concrete inputs. -/
theorem C1_path_normalization_witness :
    normalize "a/b".toList = some "a/b".toList ∧ normalize [nullChar] = none :=
  ⟨C1_path_normalization.1 "a//b".toList "a/b".toList (by decide),
   C1_path_normalization.2.2.2.2.2.2.2.2.2 [nullChar] (by decide)⟩

/-- Claim C7: on the S3 backend, `write_atomic` is extensionally equal
to `write` for every state, path, content and overwrite flag — the
source delegates unchanged, so successes and failures coincide. -/
theorem C7_s3_write_atomic_eq_write :
    ∀ (st : S3State) (p : Str) (content : Bytes) (overwrite : Bool),
      S3Backend.write_atomic st p content overwrite =
        S3Backend.write st p content overwrite :=
  fun _ _ _ _ => rfl

/-- The first component of the aggregation fold counts file entries. -/
theorem foldl_aggStep_count (l : List S3Entry) :
    ∀ acc : Nat × Nat × Option Nat,
      (l.foldl aggStep acc).1 = acc.1 + countFiles l := by
  induction l with
  | nil => intro acc; simp [countFiles]
  | cons e rest ih =>
    intro acc
    simp only [List.foldl_cons, ih]
    by_cases h : e.typ = fileTag
    · simp [aggStep, countFiles, h]
      omega
    · simp [aggStep, countFiles, h]

/-- Claim C10: `S3Backend.get_folder_info` raises `NotFound` exactly
when the prefix does not exist or the recursive walk finds zero file
entries; in particular a prefix whose `exists` answer is `true` but
whose walk yields no files (e.g. one backed only by a directory marker)
still gets `NotFound`, and any returned `FolderInfo` has
`file_count ≥ 1`. -/
theorem C10_get_folder_info_requires_files :
    (∀ (view : S3View) (p : Str),
      S3Backend.get_folder_info view p = .error .notFound ↔
        (view.existsAns = false ∨ countFiles view.findAns = 0))
    ∧ (∀ (view : S3View) (p : Str) (fi : FolderInfo),
        S3Backend.get_folder_info view p = .ok fi → 1 ≤ fi.file_count)
    ∧ (∀ p : Str,
        S3Backend.get_folder_info ⟨true, []⟩ p = .error .notFound) := by
  refine ⟨fun view p => ?_, fun view p fi h => ?_, fun p => rfl⟩
  · unfold S3Backend.get_folder_info
    cases hex : view.existsAns with
    | false => simp
    | true =>
      simp only [Bool.not_true, Bool.false_eq_true, if_false]
      rw [foldl_aggStep_count view.findAns (0, 0, none)]
      by_cases hc : countFiles view.findAns = 0
      · simp [hc]
      · simp [hc]
  · unfold S3Backend.get_folder_info at h
    cases hex : view.existsAns with
    | false => rw [hex] at h; simp at h
    | true =>
      rw [hex] at h
      simp only [Bool.not_true, Bool.false_eq_true, if_false] at h
      by_cases hc : (view.findAns.foldl aggStep (0, 0, none)).1 = 0
      · rw [if_pos hc] at h; simp at h
      · rw [if_neg hc] at h
        simp only [Except.ok.injEq] at h
        subst h
        exact Nat.one_le_iff_ne_zero.mpr hc

/-- Witness for C10 at a concrete one-file walk. -/
theorem C10_get_folder_info_requires_files_witness :
    1 ≤ (FolderInfo.mk "a".toList 1 3 (some 5)).file_count :=
  C10_get_folder_info_requires_files.2.1
    ⟨true, [⟨"a/x".toList, fileTag, 3, some 5⟩]⟩ "a".toList
    ⟨"a".toList, 1, 3, some 5⟩ (by decide)

/-- On a five-part split, `sanitize_pem` is decided by the distinct
non-base64 characters of the payload (the defensive length re-check is
dead code, since a character-for-character replacement preserves
length). -/
theorem sanitize_pem_len5 {pem : Str} (h5 : (splitPem pem).length = 5) :
    sanitize_pem pem =
      match dedupChars (((splitPem pem).getD 2 []).filter
          (fun c => !isBase64 c)) with
      | [c] =>
        some (List.intercalate pemSep ((splitPem pem).set 2
          (((splitPem pem).getD 2 []).map (fun x => if x = c then '\n' else x))))
      | _ => none := by
  simp only [sanitize_pem]
  rw [if_neg (by omega)]
  cases hd : dedupChars (((splitPem pem).getD 2 []).filter
      (fun c => !isBase64 c)) with
  | nil => rfl
  | cons c rest =>
    cases rest with
    | nil => simp
    | cons d rest2 => rfl

/-- Claim C8 as stated is false: a five-part PEM whose payload contains
no non-base64 character at all (here payload `"QUJD"`, zero distinct
non-base64 characters, hence not "more than one") is still rejected by
`_sanitize_pem`, which requires the distinct count to be exactly one. -/
theorem C8_sanitize_pem_counterexample :
    sanitize_pem "-----BEGIN-----QUJD-----END-----".toList = none
    ∧ (splitPem "-----BEGIN-----QUJD-----END-----".toList).length = 5
    ∧ (dedupChars (((splitPem "-----BEGIN-----QUJD-----END-----".toList).getD 2 []).filter
        (fun c => !isBase64 c))).length ≤ 1 := by
  refine ⟨by decide, by decide, by decide⟩

/-- Claim C8 (amended): `_sanitize_pem` errors exactly when the input
does not split into five `"-----"`-separated parts or the number of
distinct non-base64 characters in the payload part differs from one
(zero as well as several); otherwise it replaces every occurrence of
that single character in the payload by a newline, leaving the other
parts unchanged. -/
theorem C8_sanitize_pem_amended :
    ∀ pem : Str,
      (sanitize_pem pem = none ↔
        (splitPem pem).length ≠ 5 ∨
          (dedupChars (((splitPem pem).getD 2 []).filter
            (fun c => !isBase64 c))).length ≠ 1)
      ∧ (∀ c : Char,
          (splitPem pem).length = 5 →
          dedupChars (((splitPem pem).getD 2 []).filter
            (fun x => !isBase64 x)) = [c] →
          sanitize_pem pem =
            some (List.intercalate pemSep ((splitPem pem).set 2
              (((splitPem pem).getD 2 []).map
                (fun x => if x = c then '\n' else x))))) := by
  intro pem
  by_cases h5 : (splitPem pem).length = 5
  · constructor
    · rw [sanitize_pem_len5 h5]
      cases hd : dedupChars (((splitPem pem).getD 2 []).filter
          (fun c => !isBase64 c)) with
      | nil => simp [h5]
      | cons c rest =>
        cases rest with
        | nil => simp [h5]
        | cons d rest2 => simp [h5]
    · intro c _ hd
      rw [sanitize_pem_len5 h5, hd]
  · constructor
    · simp [sanitize_pem, h5]
    · intro c h5' _
      exact absurd h5' h5

/-- Witness for C8 (amended) on a PEM whose payload line breaks were
flattened to spaces. -/
theorem C8_sanitize_pem_amended_witness :
    sanitize_pem "-----BEGIN KEY-----QUJD RUZH-----END KEY-----".toList =
      some "-----BEGIN KEY-----QUJD\nRUZH-----END KEY-----".toList := by
  have h := (C8_sanitize_pem_amended
    "-----BEGIN KEY-----QUJD RUZH-----END KEY-----".toList).2
    ' ' (by decide) (by decide)
  rw [h]
  decide

/-- Claim C4 as stated is false at one input: `delete_folder` with an
empty path raises `InvalidPath` before its capability check, so on a
backend without `DELETE` the raised error is not
`CapabilityNotSupported`. -/
theorem C4_capability_gating_counterexample :
    Store.delete_folder [] "r".toList [] false false = .error .invalidPath
    ∧ Err.invalidPath ≠ .capabilityNotSupported (Capability.DELETE).value := by
  exact ⟨by decide, by decide⟩

/-- Claim C4 (amended): every capability-gated Store operation on a
backend whose capability set excludes the required capability raises
`CapabilityNotSupported` naming that capability, without delegating to
the backend (an `error` result is produced before any `Delegation`) —
unconditionally for all operations except `delete_folder`, whose
empty-path `InvalidPath` guard precedes the capability check, so its
gating holds for every non-empty path. -/
theorem C4_capability_gating_amended :
    ∀ (caps : CapabilitySet) (root : Str),
      (∀ p, Capability.READ ∉ caps →
        Store.read caps root p =
          .error (.capabilityNotSupported (Capability.READ).value))
      ∧ (∀ p, Capability.READ ∉ caps →
        Store.read_bytes caps root p =
          .error (.capabilityNotSupported (Capability.READ).value))
      ∧ (∀ p content overwrite, Capability.WRITE ∉ caps →
        Store.write caps root p content overwrite =
          .error (.capabilityNotSupported (Capability.WRITE).value))
      ∧ (∀ p content overwrite, Capability.ATOMIC_WRITE ∉ caps →
        Store.write_atomic caps root p content overwrite =
          .error (.capabilityNotSupported (Capability.ATOMIC_WRITE).value))
      ∧ (∀ p missing_ok, Capability.DELETE ∉ caps →
        Store.delete caps root p missing_ok =
          .error (.capabilityNotSupported (Capability.DELETE).value))
      ∧ (∀ p recursive missing_ok, p ≠ [] → Capability.DELETE ∉ caps →
        Store.delete_folder caps root p recursive missing_ok =
          .error (.capabilityNotSupported (Capability.DELETE).value))
      ∧ (∀ p recursive, Capability.LIST ∉ caps →
        Store.list_files caps root p recursive =
          .error (.capabilityNotSupported (Capability.LIST).value))
      ∧ (∀ p, Capability.LIST ∉ caps →
        Store.list_folders caps root p =
          .error (.capabilityNotSupported (Capability.LIST).value))
      ∧ (∀ p, Capability.METADATA ∉ caps →
        Store.get_file_info caps root p =
          .error (.capabilityNotSupported (Capability.METADATA).value))
      ∧ (∀ p, Capability.METADATA ∉ caps →
        Store.get_folder_info caps root p =
          .error (.capabilityNotSupported (Capability.METADATA).value))
      ∧ (∀ src dst overwrite, Capability.MOVE ∉ caps →
        Store.move caps root src dst overwrite =
          .error (.capabilityNotSupported (Capability.MOVE).value))
      ∧ (∀ src dst overwrite, Capability.COPY ∉ caps →
        Store.copy caps root src dst overwrite =
          .error (.capabilityNotSupported (Capability.COPY).value)) := by
  intro caps root
  refine ⟨fun p h => ?_, fun p h => ?_, fun p c o h => ?_, fun p c o h => ?_,
    fun p m h => ?_, fun p r m hp h => ?_, fun p r h => ?_, fun p h => ?_,
    fun p h => ?_, fun p h => ?_, fun s d o h => ?_, fun s d o h => ?_⟩
  all_goals
    simp [Store.read, Store.read_bytes, Store.write, Store.write_atomic,
      Store.delete, Store.delete_folder, Store.list_files, Store.list_folders,
      Store.get_file_info, Store.get_folder_info, Store.move, Store.copy,
      CapabilitySet.require, *]

/-- Witness for C4 (amended) on a backend with no capabilities. -/
theorem C4_capability_gating_amended_witness :
    Store.read [] [] "a".toList =
      .error (.capabilityNotSupported (Capability.READ).value) :=
  (C4_capability_gating_amended [] []).1 "a".toList (by decide)

/-- Claim C5: on a full-capability backend, every file-targeted Store
operation (read, read_bytes, write, write_atomic, delete,
get_file_info, and each endpoint of move/copy) raises `InvalidPath` on
an empty path; exists/is_file/is_folder/list_files/list_folders/
get_folder_info accept an empty path as the store root; and
`delete_folder` alone among folder operations raises `InvalidPath` on
an empty path. -/
theorem C5_empty_path_policy :
    ∀ root : Str,
      Store.read allCapabilities root [] = .error .invalidPath
      ∧ Store.read_bytes allCapabilities root [] = .error .invalidPath
      ∧ (∀ content overwrite,
          Store.write allCapabilities root [] content overwrite =
            .error .invalidPath)
      ∧ (∀ content overwrite,
          Store.write_atomic allCapabilities root [] content overwrite =
            .error .invalidPath)
      ∧ (∀ missing_ok,
          Store.delete allCapabilities root [] missing_ok =
            .error .invalidPath)
      ∧ Store.get_file_info allCapabilities root [] = .error .invalidPath
      ∧ (∀ dst overwrite,
          Store.move allCapabilities root [] dst overwrite =
            .error .invalidPath)
      ∧ (∀ src overwrite,
          Store.move allCapabilities root src [] overwrite =
            .error .invalidPath)
      ∧ (∀ dst overwrite,
          Store.copy allCapabilities root [] dst overwrite =
            .error .invalidPath)
      ∧ (∀ src overwrite,
          Store.copy allCapabilities root src [] overwrite =
            .error .invalidPath)
      ∧ Store.exists root [] = .ok (.existsOp root)
      ∧ Store.is_file root [] = .ok (.isFileOp root)
      ∧ Store.is_folder root [] = .ok (.isFolderOp root)
      ∧ (∀ recursive,
          Store.list_files allCapabilities root [] recursive =
            .ok (.listFilesOp root recursive))
      ∧ Store.list_folders allCapabilities root [] = .ok (.listFoldersOp root)
      ∧ Store.get_folder_info allCapabilities root [] =
          .ok (.getFolderInfoOp root)
      ∧ (∀ recursive missing_ok,
          Store.delete_folder allCapabilities root [] recursive missing_ok =
            .error .invalidPath) := by
  intro root
  refine ⟨rfl, rfl, fun c o => rfl, fun c o => rfl, fun m => rfl, rfl,
    fun d o => rfl, fun s o => ?_, fun d o => rfl, fun s o => ?_,
    rfl, rfl, rfl, fun r => rfl, rfl, rfl, fun r m => rfl⟩
  · have hm : CapabilitySet.require allCapabilities Capability.MOVE = none := by
      decide
    cases h : Store.require_file_path root s with
    | none => simp [Store.move, hm, h]
    | some fsrc =>
      simp only [Store.move, hm]
      rw [h]
      rfl
  · have hm : CapabilitySet.require allCapabilities Capability.COPY = none := by
      decide
    cases h : Store.require_file_path root s with
    | none => simp [Store.copy, hm, h]
    | some fsrc =>
      simp only [Store.copy, hm]
      rw [h]
      rfl

theorem assocGet_set_self {α : Type} (l : List (Str × α)) (p : Str) (c : α) :
    assocGet (assocSet l p c) p = some c := by
  induction l with
  | nil => simp [assocSet, assocGet]
  | cons e rest ih =>
    obtain ⟨k, v⟩ := e
    by_cases h : k = p
    · simp [assocSet, h, assocGet]
    · simp [assocSet, h, assocGet, ih]

theorem memStr_iff {l : List Str} {p : Str} : memStr l p = true ↔ p ∈ l := by
  induction l with
  | nil => simp [memStr]
  | cons d rest ih =>
    by_cases h : d = p
    · simp [memStr, h]
    · have h' : p ≠ d := fun hq => h hq.symm
      simp [memStr, h, ih, List.mem_cons, h']

/-- Every ancestor directory of a path is strictly shorter than it. -/
theorem mem_ancestors_length {p q : Str} (h : q ∈ ancestors p) :
    q.length < p.length := by
  unfold ancestors at h
  rcases List.mem_filterMap.mp h with ⟨i, hi, hcond⟩
  rw [List.mem_range] at hi
  by_cases hc : p.get? i = some '/'
  · rw [if_pos hc] at hcond
    simp only [Option.some.injEq] at hcond
    subst hcond
    rw [List.length_take]
    omega
  · rw [if_neg hc] at hcond
    simp at hcond

/-- Claim C3: the overwrite law, on the local backend and on the S3
backend: after a successful `write(p, c1)`, a `write(p, c2,
overwrite=false)` raises `AlreadyExists` with the content at `p` still
`c1` (the error is raised before any mutation), while `write(p, c2,
overwrite=true)` succeeds and leaves the content `c2`. -/
theorem C3_overwrite_law :
    (∀ (fs : LocalFS) (p : Str) (c1 c2 : Bytes) (ow : Bool) (fs1 : LocalFS),
      LocalBackend.write fs p c1 ow = .ok fs1 →
        LocalBackend.write fs1 p c2 false = .error .alreadyExists
        ∧ assocGet fs1.files p = some c1
        ∧ ∃ fs2 : LocalFS, LocalBackend.write fs1 p c2 true = .ok fs2
            ∧ assocGet fs2.files p = some c2)
    ∧ (∀ (st : S3State) (p : Str) (c1 c2 : Bytes) (ow : Bool) (st1 : S3State),
      S3Backend.write st p c1 ow = .ok st1 →
        S3Backend.write st1 p c2 false = .error .alreadyExists
        ∧ assocGet st1 p = some c1
        ∧ ∃ st2 : S3State, S3Backend.write st1 p c2 true = .ok st2
            ∧ assocGet st2 p = some c2) := by
  constructor
  · intro fs p c1 c2 ow fs1 h
    unfold LocalBackend.write at h
    by_cases h1 : (!ow && localExists fs p) = true
    · rw [if_pos h1] at h; exact absurd h (by simp)
    rw [if_neg h1] at h
    by_cases h2 : memStr fs.dirs p = true
    · rw [if_pos h2] at h; exact absurd h (by simp)
    rw [if_neg h2] at h
    simp only [Except.ok.injEq] at h
    subst h
    have hget : assocGet (assocSet fs.files p c1) p = some c1 :=
      assocGet_set_self fs.files p c1
    have hex : localExists ⟨assocSet fs.files p c1, ancestors p ++ fs.dirs⟩ p
        = true := by
      simp [localExists, hget]
    have hpa : p ∉ ancestors p :=
      fun hq => absurd (mem_ancestors_length hq) (lt_irrefl _)
    have hpd : p ∉ fs.dirs := fun hq => h2 (memStr_iff.mpr hq)
    have hdirs : memStr (ancestors p ++ fs.dirs) p = false := by
      rw [Bool.eq_false_iff]
      intro hq
      rcases List.mem_append.mp (memStr_iff.mp hq) with hq | hq
      · exact hpa hq
      · exact hpd hq
    refine ⟨?_, hget, ⟨assocSet (assocSet fs.files p c1) p c2,
      ancestors p ++ (ancestors p ++ fs.dirs)⟩, ?_,
      assocGet_set_self _ p c2⟩
    · unfold LocalBackend.write
      rw [if_pos (by simp [hex])]
    · unfold LocalBackend.write
      rw [if_neg (by simp), if_neg (by simp [hdirs])]
  · intro st p c1 c2 ow st1 h
    unfold S3Backend.write at h
    by_cases h1 : (!ow && s3Exists st p) = true
    · rw [if_pos h1] at h; exact absurd h (by simp)
    rw [if_neg h1] at h
    simp only [Except.ok.injEq] at h
    subst h
    have hget : assocGet (assocSet st p c1) p = some c1 :=
      assocGet_set_self st p c1
    have hex : s3Exists (assocSet st p c1) p = true := by
      simp [s3Exists, hget]
    refine ⟨?_, hget, assocSet (assocSet st p c1) p c2, ?_,
      assocGet_set_self _ p c2⟩
    · unfold S3Backend.write
      rw [if_pos (by simp [hex])]
    · unfold S3Backend.write
      rw [if_neg (by simp)]

/-- Witness for C3 at a concrete file and contents. -/
theorem C3_overwrite_law_witness :
    LocalBackend.write ⟨[("a".toList, [1])], []⟩ "a".toList [2] false
      = .error .alreadyExists
    ∧ S3Backend.write [("a".toList, [1])] "a".toList [2] false
      = .error .alreadyExists :=
  ⟨(C3_overwrite_law.1 ⟨[], []⟩ "a".toList [1] [2] false
      ⟨[("a".toList, [1])], []⟩ (by decide)).1,
   (C3_overwrite_law.2 [] "a".toList [1] [2] false
      [("a".toList, [1])] (by decide)).1⟩

/-- Claim C6: on the local backend, non-recursive `delete_folder` on an
existing non-empty directory raises `NotFound` — the `ENOTEMPTY` error
branch, distinct from the base error kind and from `PermissionDenied` —
and, being an `error` result raised before any mutation, leaves the
state unchanged. -/
theorem C6_delete_folder_nonempty_notfound :
    ∀ (fs : LocalFS) (p : Str) (missing_ok : Bool),
      memStr fs.dirs p = true → hasChildren fs p = true →
      LocalBackend.delete_folder fs p false missing_ok =
        .error .notFound := by
  intro fs p mo hdir hch
  unfold LocalBackend.delete_folder
  have hex : localExists fs p = true := by simp [localExists, hdir]
  rw [if_neg (by simp [hex]), if_neg (by simp [hdir]), if_neg (by simp),
    if_pos hch]

/-- Witness for C6 on a directory holding one file. -/
theorem C6_delete_folder_nonempty_notfound_witness :
    LocalBackend.delete_folder ⟨[("a/x".toList, [1])], ["a".toList]⟩
      "a".toList false false = .error .notFound :=
  C6_delete_folder_nonempty_notfound ⟨[("a/x".toList, [1])], ["a".toList]⟩
    "a".toList false (by decide) (by decide)

/-- A successful `_get_backend` leaves the instance in the cache under
the requested name. -/
theorem get_backend_cache {facts : List Str} {cfg : RegistryConfigM}
    {st : RegState} {name : Str} {bid : Nat} {st' : RegState}
    (h : Registry.get_backend facts cfg st name = .ok (bid, st')) :
    assocGet st'.cache name = some bid := by
  unfold Registry.get_backend at h
  cases hc : assocGet st.cache name with
  | some b =>
    rw [hc] at h
    simp only [Except.ok.injEq, Prod.mk.injEq] at h
    obtain ⟨h1, h2⟩ := h
    subst h1
    subst h2
    exact hc
  | none =>
    rw [hc] at h
    cases hb : assocGet cfg.backends name with
    | none => rw [hb] at h; exact absurd h (by simp)
    | some bc =>
      rw [hb] at h
      by_cases hm : memStr facts bc.type = true
      · simp only [hm, if_true, Except.ok.injEq, Prod.mk.injEq] at h
        obtain ⟨h1, h2⟩ := h
        subst h1
        subst h2
        simp [assocGet]
      · simp [hm] at h

/-- Claim C9: registry backend instantiation is lazy and shared —
construction validates the configuration but instantiates nothing (the
cache starts empty with zero constructions); two `get_store` calls
whose profiles name the same backend-config receive the identical
backend instance, the second call performing no construction (state
unchanged); a cached name is always returned as-is; and `close` clears
the cache. -/
theorem C9_registry_lazy_shared :
    (∀ (cfg : RegistryConfigM) (st : RegState),
      Registry.construct cfg = .ok st → st.cache = [] ∧ st.nextId = 0)
    ∧ (∀ (facts : List Str) (cfg : RegistryConfigM) (st : RegState)
        (n1 n2 : Str) (prof1 prof2 : StoreProfileM) (s1 s2 : StoreM)
        (st1 st2 : RegState),
        assocGet cfg.stores n1 = some prof1 →
        assocGet cfg.stores n2 = some prof2 →
        prof2.backend = prof1.backend →
        Registry.get_store facts cfg st n1 = .ok (s1, st1) →
        Registry.get_store facts cfg st1 n2 = .ok (s2, st2) →
        s2.backendId = s1.backendId ∧ st2 = st1)
    ∧ (∀ (facts : List Str) (cfg : RegistryConfigM) (st : RegState)
        (name : Str) (bid : Nat),
        assocGet st.cache name = some bid →
        Registry.get_backend facts cfg st name = .ok (bid, st))
    ∧ (∀ st : RegState, (Registry.close st).cache = []) := by
  have hit : ∀ (facts : List Str) (cfg : RegistryConfigM) (st : RegState)
      (name : Str) (bid : Nat), assocGet st.cache name = some bid →
      Registry.get_backend facts cfg st name = .ok (bid, st) := by
    intro facts cfg st name bid h
    unfold Registry.get_backend
    rw [h]
  refine ⟨?_, ?_, hit, fun st => rfl⟩
  · intro cfg st h
    unfold Registry.construct at h
    by_cases hv : cfg.validate = true
    · rw [if_pos hv] at h
      simp only [Except.ok.injEq] at h
      subst h
      exact ⟨rfl, rfl⟩
    · rw [if_neg hv] at h
      exact absurd h (by simp)
  · intro facts cfg st n1 n2 prof1 prof2 s1 s2 st1 st2 hn1 hn2 hb hg1 hg2
    unfold Registry.get_store at hg1 hg2
    simp only [hn1] at hg1
    simp only [hn2, hb] at hg2
    cases hgb1 : Registry.get_backend facts cfg st prof1.backend with
    | error e => rw [hgb1] at hg1; exact absurd hg1 (by simp)
    | ok pr =>
      obtain ⟨bid1, st1'⟩ := pr
      rw [hgb1] at hg1
      simp only [Except.ok.injEq, Prod.mk.injEq] at hg1
      obtain ⟨hs1, hst1⟩ := hg1
      subst hst1
      have hcache : assocGet st1'.cache prof1.backend = some bid1 :=
        get_backend_cache hgb1
      rw [hit facts cfg st1' prof1.backend bid1 hcache] at hg2
      simp only [Except.ok.injEq, Prod.mk.injEq] at hg2
      obtain ⟨hs2, hst2⟩ := hg2
      subst hst2
      rw [← hs1, ← hs2]
      exact ⟨rfl, rfl⟩

/-- Witness for C9: two profiles `s1`, `s2` over one backend config
`b`; both `get_store` calls return backend instance `0`, and the second
call leaves the one-entry cache untouched. -/
theorem C9_registry_lazy_shared_witness :
    (StoreM.mk 0 "r2".toList).backendId = (StoreM.mk 0 "r1".toList).backendId
    ∧ (RegState.mk [("b".toList, 0)] 1) = RegState.mk [("b".toList, 0)] 1 :=
  C9_registry_lazy_shared.2.1 ["local".toList]
    ⟨[("b".toList, ⟨"local".toList⟩)],
     [("s1".toList, ⟨"b".toList, "r1".toList⟩),
      ("s2".toList, ⟨"b".toList, "r2".toList⟩)]⟩
    ⟨[], 0⟩ "s1".toList "s2".toList
    ⟨"b".toList, "r1".toList⟩ ⟨"b".toList, "r2".toList⟩
    ⟨0, "r1".toList⟩ ⟨0, "r2".toList⟩
    ⟨[("b".toList, 0)], 1⟩ ⟨[("b".toList, 0)], 1⟩
    (by decide) (by decide) rfl (by decide) (by decide)

theorem isPrefixOf_append_self (l t : Str) : (l.isPrefixOf (l ++ t)) = true := by
  induction l with
  | nil => simp [List.isPrefixOf]
  | cons a as ih => simp [List.isPrefixOf, ih]

theorem append_cons_ne_self (root : Str) (c : Char) (rest : Str) :
    root ++ c :: rest ≠ root := by
  intro h
  have hlen := congrArg List.length h
  rw [List.length_append] at hlen
  simp at hlen

theorem drop_append_cons (root rest : Str) :
    (root ++ '/' :: rest).drop (root.length + 1) = rest := by
  have hsplit : root ++ '/' :: rest = (root ++ ['/']) ++ rest := by simp
  have hlen : root.length + 1 = (root ++ ['/']).length := by simp
  rw [hsplit, hlen, List.drop_left]

/-- Claim C2 as stated is false on one corner: a backend path strictly
under the root (`"data/data/x"` under root `"data"`, i.e. the file the
store itself calls `"data/x"`) strips to a path that still starts with
the root-path prefix. -/
theorem C2_round_trip_counterexample :
    Store.strip_root "data".toList "data/data/x".toList =
      some "data/x".toList
    ∧ (("data".toList ++ ['/']).isPrefixOf "data/x".toList) = true
    ∧ isPre ("data".toList ++ ['/']) "data/data/x".toList = true := by
  refine ⟨by decide, by decide, by decide⟩

/-- Claim C2 (amended): for a Store with non-empty normalized root,
every backend path strictly under the root strips to exactly the suffix
after `root ++ "/"` (the root prefix is removed once — the result can
still begin with the root segment when the suffix repeats it), and that
suffix fed verbatim back through the Store's path resolution (as
`read_bytes` does) resolves to the identical backend path; likewise a
listed `FileInfo` is rebased to that suffix. -/
theorem C2_round_trip_amended :
    ∀ (root rest : Str), root ≠ [] → normalize rest = some rest →
      Store.strip_root root (root ++ '/' :: rest) = some rest
      ∧ Store.require_file_path root rest = some (root ++ '/' :: rest)
      ∧ (∀ info : FileInfo, info.path = root ++ '/' :: rest →
          Store.rebase_file_info root info =
            some { info with path := rest }) := by
  intro root rest hroot hnorm
  have hstrip : Store.strip_root root (root ++ '/' :: rest) = some rest := by
    unfold Store.strip_root
    have hpre : ((root ++ ['/']).isPrefixOf (root ++ '/' :: rest)) = true := by
      have hsplit : root ++ '/' :: rest = (root ++ ['/']) ++ rest := by simp
      rw [hsplit]
      exact isPrefixOf_append_self _ _
    rw [if_neg hroot, if_neg (append_cons_ne_self root '/' rest),
      if_pos hpre, drop_append_cons]
  have hne : rest ≠ [] := normalize_ne_nil hnorm
  have hfull : Store.require_file_path root rest =
      some (root ++ '/' :: rest) := by
    unfold Store.require_file_path Store.full_path
    rw [if_neg hne, if_neg hne, hnorm]
    show (if root = [] then some rest else some (root ++ '/' :: rest)) = _
    rw [if_neg hroot]
  refine ⟨hstrip, hfull, fun info hpath => ?_⟩
  unfold Store.rebase_file_info
  rw [hpath, hstrip]
  have hne2 : rest ≠ root ++ '/' :: rest := by
    intro h
    have hlen := congrArg List.length h
    rw [List.length_append] at hlen
    simp only [List.length_cons] at hlen
    omega
  show (if rest = root ++ '/' :: rest then some info
    else
      match normalize rest with
      | none => none
      | some rp => some { info with path := rp }) = _
  rw [if_neg hne2, hnorm]

/-- Witness for C2 (amended) at root `"data"` and suffix `"x"`. -/
theorem C2_round_trip_amended_witness :
    Store.strip_root "data".toList ("data".toList ++ '/' :: "x".toList) =
      some "x".toList
    ∧ Store.require_file_path "data".toList "x".toList =
        some ("data".toList ++ '/' :: "x".toList) := by
  have h := C2_round_trip_amended "data".toList "x".toList (by decide)
    (by decide)
  exact ⟨h.1, h.2.1⟩

end RemoteStore
